import Mathlib

/-!
Verification of the asynchronous task orchestration and result-caching
subsystem of the lexi-shift translation service.

The Python sources are shallowly embedded: the cache dictionary and the task
store become insertion-ordered association lists, wall-clock instants become
integers passed explicitly, and the external translator (an ML model) becomes
a record of functions returning `Except String` values, where `Except.error`
carries the text of the raised exception.
-/

namespace LexiShift

/-- An entry of the translation cache: key, cached value and insertion
timestamp (a `time.time()` instant, modelled as an integer). -/
abbrev Entry := String × String × Int

/-- Model of `TranslationCache` from `src/utils/cache.py`.  The Python `dict`
is modelled as an insertion-ordered association list. -/
structure TranslationCache where
  max_size : Nat
  ttl : Int
  cache : List Entry
  hits : Nat
  misses : Nat
deriving DecidableEq, Repr

/-- Lookup in the ordered association list: models both the membership test
`key in self.cache` and the read `self.cache[key]`. -/
def lookupKey : List Entry → String → Option (String × Int)
  | [], _ => none
  | e :: es, k => if e.1 = k then some e.2 else lookupKey es k

/-- Model of `del self.cache[key]`: removes the binding of `key` (the first
one; in a Python dict keys are unique). -/
def eraseKey : List Entry → String → List Entry
  | [], _ => []
  | e :: es, k => if e.1 = k then es else e :: eraseKey es k

/-- Model of the dict assignment `self.cache[key] = (value, time.time())`:
replaces the binding in place when `key` is present (Python dicts keep the
original insertion position on update) and appends at the end otherwise. -/
def dictInsert : List Entry → String → String → Int → List Entry
  | [], k, v, t => [(k, v, t)]
  | e :: es, k, v, t => if e.1 = k then (k, v, t) :: es else e :: dictInsert es k v t

/-- Model of `min(self.cache.items(), key=lambda x: x[1][1])`: the first entry
in iteration order whose insertion timestamp is minimal.  Returns `none` on an
empty dict, where the Python `min` would raise. -/
def oldestEntry : List Entry → Option Entry
  | [] => none
  | e :: es => some (es.foldl (fun b x => if x.2.2 < b.2.2 then x else b) e)

/-- Model of `TranslationCache.get` (`cache.py`, lines 31-51), with the
current time passed explicitly.  Returns the looked-up value together with
the updated cache state. -/
def TranslationCache.get (c : TranslationCache) (key : String) (now : Int) :
    Option String × TranslationCache :=
  match lookupKey c.cache key with
  | some (value, timestamp) =>
      if now - timestamp ≤ c.ttl then
        (some value, { c with hits := c.hits + 1 })
      else
        (none, { c with cache := eraseKey c.cache key, misses := c.misses + 1 })
  | none => (none, { c with misses := c.misses + 1 })

/-- Model of `TranslationCache.set` (`cache.py`, lines 53-66): when the dict
already holds at least `max_size` entries the entry with the oldest insertion
timestamp is deleted (whether or not `key` itself is present), then the new
binding is written.  The `none` branch of `oldestEntry` is unreachable from a
state with at least one entry. -/
def TranslationCache.set (c : TranslationCache) (key value : String) (now : Int) :
    TranslationCache :=
  let c₁ :=
    if c.max_size ≤ c.cache.length then
      match oldestEntry c.cache with
      | some e => { c with cache := eraseKey c.cache e.1 }
      | none => c
    else c
  { c₁ with cache := dictInsert c₁.cache key value now }

/-- Model of `TranslationCache.clear`: drops all entries, resets no counters. -/
def TranslationCache.clear (c : TranslationCache) : TranslationCache :=
  { c with cache := [] }

/-- The dictionary returned by `TranslationCache.get_stats`. -/
structure CacheStats where
  size : Nat
  max_size : Nat
  ttl : Int
  hits : Nat
  misses : Nat
  hit_rate : ℚ
deriving DecidableEq, Repr

/-- Model of `TranslationCache.get_stats` (`cache.py`, lines 73-90). -/
def TranslationCache.get_stats (c : TranslationCache) : CacheStats :=
  let total := c.hits + c.misses
  { size := c.cache.length
    max_size := c.max_size
    ttl := c.ttl
    hits := c.hits
    misses := c.misses
    hit_rate := if 0 < total then (c.hits : ℚ) / (total : ℚ) else 0 }

theorem lookupKey_eq_none (l : List Entry) (k : String) :
    lookupKey l k = none ↔ k ∉ l.map Prod.fst := by
  induction l with
  | nil => simp [lookupKey]
  | cons e es ih =>
      by_cases h : e.1 = k
      · simp [lookupKey, h]
      · simp [lookupKey, h, ih, Ne.symm h]

theorem lookupKey_dictInsert_self (l : List Entry) (k v : String) (t : Int) :
    lookupKey (dictInsert l k v t) k = some (v, t) := by
  induction l with
  | nil => simp [dictInsert, lookupKey]
  | cons e es ih =>
      by_cases h : e.1 = k
      · simp [dictInsert, h, lookupKey]
      · simp [dictInsert, h, lookupKey, ih]

theorem lookupKey_dictInsert_ne (l : List Entry) (k k' v : String) (t : Int)
    (h : k' ≠ k) : lookupKey (dictInsert l k v t) k' = lookupKey l k' := by
  induction l with
  | nil => simp [dictInsert, lookupKey, Ne.symm h]
  | cons e es ih =>
      by_cases he : e.1 = k
      · simp [dictInsert, he, lookupKey, Ne.symm h]
      · simp [dictInsert, he, lookupKey, ih]

theorem lookupKey_eraseKey_ne (l : List Entry) (k k' : String) (h : k' ≠ k) :
    lookupKey (eraseKey l k) k' = lookupKey l k' := by
  induction l with
  | nil => simp [eraseKey]
  | cons e es ih =>
      by_cases he : e.1 = k
      · simp [eraseKey, he, lookupKey, Ne.symm h]
      · simp [eraseKey, he, lookupKey, ih]

theorem lookupKey_eraseKey_self (l : List Entry) (k : String)
    (hnd : (l.map Prod.fst).Nodup) : lookupKey (eraseKey l k) k = none := by
  induction l with
  | nil => simp [eraseKey, lookupKey]
  | cons e es ih =>
      simp only [List.map_cons, List.nodup_cons] at hnd
      by_cases he : e.1 = k
      · rw [show eraseKey (e :: es) k = es by simp [eraseKey, he]]
        exact (lookupKey_eq_none es k).2 (he ▸ hnd.1)
      · simp [eraseKey, he, lookupKey, ih hnd.2]

theorem foldl_oldest_mem (es : List Entry) :
    ∀ b : Entry, es.foldl (fun b x => if x.2.2 < b.2.2 then x else b) b ∈ b :: es := by
  induction es with
  | nil => intro b; simp
  | cons x xs ih =>
      intro b
      simp only [List.foldl_cons]
      rcases List.mem_cons.mp (ih (if x.2.2 < b.2.2 then x else b)) with h | h
      · rw [h]
        by_cases hx : x.2.2 < b.2.2
        · simp [hx]
        · simp [hx]
      · simp [h]

theorem oldestEntry_mem (l : List Entry) (e : Entry) (h : oldestEntry l = some e) :
    e ∈ l := by
  cases l with
  | nil => simp [oldestEntry] at h
  | cons a es =>
      simp only [oldestEntry, Option.some.injEq] at h
      exact h ▸ foldl_oldest_mem es a

theorem length_eraseKey_le (l : List Entry) (k : String) :
    (eraseKey l k).length ≤ l.length := by
  induction l with
  | nil => simp [eraseKey]
  | cons e es ih =>
      by_cases he : e.1 = k
      · simp only [eraseKey, if_pos he, List.length_cons]
        omega
      · simp only [eraseKey, if_neg he, List.length_cons]
        omega

theorem length_eraseKey_of_mem (l : List Entry) (k : String)
    (h : k ∈ l.map Prod.fst) : (eraseKey l k).length + 1 = l.length := by
  induction l with
  | nil => simp at h
  | cons e es ih =>
      by_cases he : e.1 = k
      · simp [eraseKey, he]
      · have hk : k ∈ es.map Prod.fst := by
          simp only [List.map_cons, List.mem_cons] at h
          rcases h with h | h
          · exact absurd h.symm he
          · exact h
        simp only [eraseKey, if_neg he, List.length_cons]
        have := ih hk
        omega

theorem length_dictInsert_le (l : List Entry) (k v : String) (t : Int) :
    (dictInsert l k v t).length ≤ l.length + 1 := by
  induction l with
  | nil => simp [dictInsert]
  | cons e es ih =>
      by_cases he : e.1 = k
      · simp [dictInsert, he]
      · simp only [dictInsert, if_neg he, List.length_cons]
        omega

/-- C7: `get(key)` returns the cached value and increments the hit counter
exactly when the key is present and `now - insertion_timestamp <= ttl`;
otherwise it returns `none` and increments the miss counter, and a
present-but-expired entry is deleted from the mapping as a side effect of
that `get`. -/
theorem cache_get_spec (c : TranslationCache) (key : String) (now : Int)
    (hnd : (c.cache.map Prod.fst).Nodup) :
    (∀ v ts, lookupKey c.cache key = some (v, ts) → now - ts ≤ c.ttl →
      c.get key now = (some v, { c with hits := c.hits + 1 })) ∧
    (∀ v ts, lookupKey c.cache key = some (v, ts) → c.ttl < now - ts →
      c.get key now =
        (none, { c with cache := eraseKey c.cache key, misses := c.misses + 1 }) ∧
      lookupKey (c.get key now).2.cache key = none) ∧
    (lookupKey c.cache key = none →
      c.get key now = (none, { c with misses := c.misses + 1 })) := by
  refine ⟨?_, ?_, ?_⟩
  · intro v ts hl hle
    simp [TranslationCache.get, hl, hle]
  · intro v ts hl hgt
    have hnle : ¬ now - ts ≤ c.ttl := by omega
    refine ⟨by simp [TranslationCache.get, hl, hnle], ?_⟩
    simp [TranslationCache.get, hl, hnle, lookupKey_eraseKey_self c.cache key hnd]
  · intro hl
    simp [TranslationCache.get, hl]

/-- Witness for `cache_get_spec`: a fresh entry is a hit. -/
theorem cache_get_spec_witness :
    (⟨2, 10, [("k", "v", 0)], 0, 0⟩ : TranslationCache).get "k" 5 =
      (some "v", ⟨2, 10, [("k", "v", 0)], 1, 0⟩) :=
  (cache_get_spec ⟨2, 10, [("k", "v", 0)], 0, 0⟩ "k" 5 (by decide)).1 "v" 0
    (by decide) (by decide)

/-- C9: `get_stats` reports the current size, the configured capacity and
TTL, the counters, and `hit_rate = hits / (hits + misses)` when the
denominator is positive and `0` otherwise. -/
theorem cache_stats_spec (c : TranslationCache) :
    c.get_stats.size = c.cache.length ∧
    c.get_stats.max_size = c.max_size ∧
    c.get_stats.ttl = c.ttl ∧
    c.get_stats.hits = c.hits ∧
    c.get_stats.misses = c.misses ∧
    (0 < c.hits + c.misses →
      c.get_stats.hit_rate = (c.hits : ℚ) / ((c.hits : ℚ) + (c.misses : ℚ))) ∧
    (c.hits + c.misses = 0 → c.get_stats.hit_rate = 0) := by
  refine ⟨rfl, rfl, rfl, rfl, rfl, ?_, ?_⟩
  · intro h
    simp only [TranslationCache.get_stats, if_pos h]
    push_cast
    ring
  · intro h
    simp [TranslationCache.get_stats, h]

/-- Witness for `cache_stats_spec`: a scripted run of two hits and one miss
reports a hit rate of exactly 2/3. -/
theorem cache_stats_spec_witness :
    ((((⟨5, 10, [("k", "v", 0)], 0, 0⟩ : TranslationCache).get "k" 1).2.get
      "k" 2).2.get "x" 3).2.get_stats.hit_rate = 2 / 3 := by
  have hc : ((((⟨5, 10, [("k", "v", 0)], 0, 0⟩ : TranslationCache).get "k" 1).2.get
      "k" 2).2.get "x" 3).2 = ⟨5, 10, [("k", "v", 0)], 2, 1⟩ := by decide
  have h := (cache_stats_spec ⟨5, 10, [("k", "v", 0)], 2, 1⟩).2.2.2.2.2.1 (by decide)
  rw [hc, h]
  norm_num

/-- C2 counterexample: a cache at capacity `max_size = 2` holding key `a`
(inserted at time 1) and key `b` (inserted at time 2); calling `set` on the
already-present key `b` nevertheless evicts the other entry `a`. -/
theorem cache_set_evicts_on_present_key :
    lookupKey (⟨2, 100, [("a", "va", 1), ("b", "vb", 2)], 0, 0⟩ :
        TranslationCache).cache "b" = some ("vb", 2) ∧
    lookupKey ((⟨2, 100, [("a", "va", 1), ("b", "vb", 2)], 0, 0⟩ :
        TranslationCache).set "b" "vb2" 3).cache "a" = none := by
  decide

/-- C2 (amended): `set(key, value)` inserts or overwrites the binding of
`key` with a fresh insertion timestamp; when the cache holds fewer than
`max_size` entries no other entry is touched; when it holds at least
`max_size` entries the entry with the oldest insertion timestamp is evicted
whether or not `key` is already present, and no entry other than that one
(and `key` itself) is touched. -/
theorem cache_set_spec (c : TranslationCache) (key value : String) (now : Int) :
    lookupKey (c.set key value now).cache key = some (value, now) ∧
    (c.cache.length < c.max_size → ∀ k, k ≠ key →
      lookupKey (c.set key value now).cache k = lookupKey c.cache k) ∧
    ((c.cache.map Prod.fst).Nodup → c.max_size ≤ c.cache.length →
      ∀ e, oldestEntry c.cache = some e → e.1 ≠ key →
        lookupKey (c.set key value now).cache e.1 = none ∧
        ∀ k, k ≠ key → k ≠ e.1 →
          lookupKey (c.set key value now).cache k = lookupKey c.cache k) := by
  refine ⟨?_, ?_, ?_⟩
  · exact lookupKey_dictInsert_self _ key value now
  · intro hlt k hk
    have hcond : ¬ c.max_size ≤ c.cache.length := by omega
    simp only [TranslationCache.set, if_neg hcond]
    exact lookupKey_dictInsert_ne c.cache key k value now hk
  · intro hnd hge e holdest hek
    refine ⟨?_, ?_⟩
    · simp only [TranslationCache.set, if_pos hge, holdest]
      rw [lookupKey_dictInsert_ne _ key e.1 value now hek]
      exact lookupKey_eraseKey_self c.cache e.1 hnd
    · intro k hk hke
      simp only [TranslationCache.set, if_pos hge, holdest]
      rw [lookupKey_dictInsert_ne _ key k value now hk]
      exact lookupKey_eraseKey_ne c.cache e.1 k hke

/-- Witness for `cache_set_spec`: inserting a new key into a full cache
evicts the oldest entry. -/
theorem cache_set_spec_witness :
    lookupKey ((⟨2, 100, [("a", "va", 1), ("b", "vb", 2)], 0, 0⟩ :
        TranslationCache).set "c" "vc" 3).cache "a" = none :=
  ((cache_set_spec ⟨2, 100, [("a", "va", 1), ("b", "vb", 2)], 0, 0⟩ "c" "vc" 3).2.2
    (by decide) (by decide) ("a", "va", 1) (by decide) (by decide)).1

/-- An operation against the cache, as issued by the service's callers. -/
inductive CacheOp
  | get (key : String) (now : Int)
  | set (key value : String) (now : Int)
  | clear
deriving DecidableEq, Repr

/-- Runs one operation against the cache state. -/
def TranslationCache.applyOp (c : TranslationCache) : CacheOp → TranslationCache
  | .get key now => (TranslationCache.get c key now).2
  | .set key value now => TranslationCache.set c key value now
  | .clear => TranslationCache.clear c

/-- Runs a sequence of operations against the cache state. -/
def TranslationCache.applyOps (c : TranslationCache) (ops : List CacheOp) :
    TranslationCache :=
  ops.foldl TranslationCache.applyOp c

/-- The state built by `TranslationCache.__init__` (`cache.py`, lines 17-29). -/
def emptyCache (max_size : Nat) (ttl : Int) : TranslationCache :=
  ⟨max_size, ttl, [], 0, 0⟩

theorem get_snd_hit (c : TranslationCache) (key : String) (now : Int) (v : String)
    (ts : Int) (hl : lookupKey c.cache key = some (v, ts)) (hle : now - ts ≤ c.ttl) :
    (c.get key now).2 = { c with hits := c.hits + 1 } := by
  simp [TranslationCache.get, hl, hle]

theorem get_snd_expired (c : TranslationCache) (key : String) (now : Int) (v : String)
    (ts : Int) (hl : lookupKey c.cache key = some (v, ts)) (hle : ¬ now - ts ≤ c.ttl) :
    (c.get key now).2 = { c with cache := eraseKey c.cache key, misses := c.misses + 1 } := by
  simp [TranslationCache.get, hl, hle]

theorem get_snd_missing (c : TranslationCache) (key : String) (now : Int)
    (hl : lookupKey c.cache key = none) :
    (c.get key now).2 = { c with misses := c.misses + 1 } := by
  simp [TranslationCache.get, hl]

theorem set_cache_of_lt (c : TranslationCache) (key value : String) (now : Int)
    (hlt : ¬ c.max_size ≤ c.cache.length) :
    (c.set key value now).cache = dictInsert c.cache key value now := by
  simp [TranslationCache.set, if_neg hlt]

theorem set_cache_of_ge (c : TranslationCache) (key value : String) (now : Int)
    (e : Entry) (hge : c.max_size ≤ c.cache.length) (ho : oldestEntry c.cache = some e) :
    (c.set key value now).cache = dictInsert (eraseKey c.cache e.1) key value now := by
  simp [TranslationCache.set, if_pos hge, ho]

theorem oldestEntry_isSome (l : List Entry) (h : l ≠ []) :
    ∃ e, oldestEntry l = some e := by
  cases l with
  | nil => exact absurd rfl h
  | cons a es => exact ⟨_, rfl⟩

theorem applyOp_max_size (c : TranslationCache) (op : CacheOp) :
    (c.applyOp op).max_size = c.max_size := by
  cases op with
  | get key now =>
      rcases hl : lookupKey c.cache key with _ | ⟨v, ts⟩
      · rw [TranslationCache.applyOp, get_snd_missing c key now hl]
      · by_cases hle : now - ts ≤ c.ttl
        · rw [TranslationCache.applyOp, get_snd_hit c key now v ts hl hle]
        · rw [TranslationCache.applyOp, get_snd_expired c key now v ts hl hle]
  | set key value now =>
      by_cases hcond : c.max_size ≤ c.cache.length
      · rcases ho : oldestEntry c.cache with _ | e
        · simp [TranslationCache.applyOp, TranslationCache.set, if_pos hcond, ho]
        · simp [TranslationCache.applyOp, TranslationCache.set, if_pos hcond, ho]
      · simp [TranslationCache.applyOp, TranslationCache.set, if_neg hcond]
  | clear => rfl

theorem applyOp_length_le (c : TranslationCache) (op : CacheOp)
    (hsz : 1 ≤ c.max_size) (h : c.cache.length ≤ c.max_size) :
    (c.applyOp op).cache.length ≤ c.max_size := by
  cases op with
  | get key now =>
      rcases hl : lookupKey c.cache key with _ | ⟨v, ts⟩
      · rw [TranslationCache.applyOp, get_snd_missing c key now hl]
        exact h
      · by_cases hle : now - ts ≤ c.ttl
        · rw [TranslationCache.applyOp, get_snd_hit c key now v ts hl hle]
          exact h
        · rw [TranslationCache.applyOp, get_snd_expired c key now v ts hl hle]
          exact le_trans (length_eraseKey_le c.cache key) h
  | set key value now =>
      by_cases hcond : c.max_size ≤ c.cache.length
      · have hne : c.cache ≠ [] := by
          intro hnil
          rw [hnil] at hcond
          simp only [List.length_nil] at hcond
          omega
        obtain ⟨e, ho⟩ := oldestEntry_isSome c.cache hne
        have hmem : e ∈ c.cache := oldestEntry_mem c.cache e ho
        have hkey : e.1 ∈ c.cache.map Prod.fst := List.mem_map_of_mem Prod.fst hmem
        have herase := length_eraseKey_of_mem c.cache e.1 hkey
        have hins := length_dictInsert_le (eraseKey c.cache e.1) key value now
        rw [TranslationCache.applyOp, set_cache_of_ge c key value now e hcond ho]
        omega
      · have hins := length_dictInsert_le c.cache key value now
        rw [TranslationCache.applyOp, set_cache_of_lt c key value now hcond]
        omega
  | clear =>
      simp [TranslationCache.applyOp, TranslationCache.clear]

/-- C10: starting from the empty cache with capacity `max_size >= 1`, no
sequence of `get`, `set` and `clear` operations ever leaves more than
`max_size` stored entries. -/
theorem cache_size_bounded (max_size : Nat) (ttl : Int) (ops : List CacheOp)
    (hsz : 1 ≤ max_size) :
    ((emptyCache max_size ttl).applyOps ops).cache.length ≤ max_size := by
  suffices h : ∀ (c : TranslationCache), c.max_size = max_size →
      c.cache.length ≤ max_size → (c.applyOps ops).cache.length ≤ max_size by
    exact h (emptyCache max_size ttl) rfl (by simp [emptyCache])
  induction ops with
  | nil => intro c hm hlen; exact hlen
  | cons op rest ih =>
      intro c hm hlen
      have h1 : (c.applyOp op).max_size = max_size := by
        rw [applyOp_max_size, hm]
      have h2 : (c.applyOp op).cache.length ≤ max_size := by
        have h3 := applyOp_length_le c op (by omega) (by omega)
        omega
      exact ih (c.applyOp op) h1 h2

/-- Witness for `cache_size_bounded`: six inserts into a cache of capacity
five leave five entries. -/
theorem cache_size_bounded_witness :
    ((emptyCache 5 100).applyOps
      [.set "a" "1" 1, .set "b" "2" 2, .set "c" "3" 3, .set "d" "4" 4,
       .set "e" "5" 5, .set "f" "6" 6]).cache.length ≤ 5 :=
  cache_size_bounded 5 100
    [.set "a" "1" 1, .set "b" "2" 2, .set "c" "3" 3, .set "d" "4" 4,
     .set "e" "5" 5, .set "f" "6" 6] (by decide)

/-- One decimal digit character, `48 + n % 10` being the code point of the
digit: models how Python renders each digit of an integer. -/
def decDigit (n : Nat) : Char := Char.ofNat (48 + n % 10)

/-- Digit accumulator for the decimal rendering (fuel-driven so that it is
structurally recursive and evaluates inside the kernel). -/
def natDigitsAux : Nat → Nat → List Char → List Char
  | 0, _, acc => acc
  | fuel + 1, n, acc =>
      if n < 10 then decDigit n :: acc
      else natDigitsAux fuel (n / 10) (decDigit n :: acc)

/-- Decimal rendering of a natural number: models the f-string formatting of
`beam_size` and `max_length` inside `generate_cache_key`. -/
def natRepr (n : Nat) : String := ⟨natDigitsAux (n + 1) n []⟩

/-- Model of `generate_cache_key` (`cache.py`, lines 97-113):
the f-string `f"{source_lang}:{target_lang}:{beam_size}:{max_length}:{text}"`. -/
def generate_cache_key (text source_lang target_lang : String)
    (beam_size max_length : Nat) : String :=
  source_lang ++ ":" ++ target_lang ++ ":" ++ natRepr beam_size ++ ":" ++
    natRepr max_length ++ ":" ++ text

theorem decDigit_ne_colon (n : Nat) : decDigit n ≠ ':' := by
  unfold decDigit
  set m := n % 10 with hm
  have hlt : m < 10 := by omega
  interval_cases m <;> decide

theorem decDigit_toNat (n : Nat) : (decDigit n).toNat = 48 + n % 10 := by
  unfold decDigit
  set m := n % 10 with hm
  have hlt : m < 10 := by omega
  interval_cases m <;> decide

theorem natDigitsAux_eq (n : Nat) : ∀ fuel acc, n < fuel →
    natDigitsAux fuel n acc = natDigitsAux (n + 1) n [] ++ acc := by
  induction n using Nat.strong_induction_on with
  | _ n ih =>
      intro fuel acc hfuel
      match fuel, hfuel with
      | fuel + 1, _ =>
          by_cases h10 : n < 10
          · simp [natDigitsAux, h10]
          · have hdiv : n / 10 < n := by omega
            rw [show natDigitsAux (fuel + 1) n acc
                  = natDigitsAux fuel (n / 10) (decDigit n :: acc) by
                simp [natDigitsAux, h10],
              show natDigitsAux (n + 1) n []
                  = natDigitsAux n (n / 10) [decDigit n] by
                simp [natDigitsAux, h10],
              ih (n / 10) hdiv fuel (decDigit n :: acc) (by omega),
              ih (n / 10) hdiv n [decDigit n] (by omega)]
            simp

theorem natDigitsAux_unfold (n : Nat) : natDigitsAux (n + 1) n [] =
    if n < 10 then [decDigit n]
    else natDigitsAux (n / 10 + 1) (n / 10) [] ++ [decDigit n] := by
  by_cases h10 : n < 10
  · simp [natDigitsAux, h10]
  · rw [if_neg h10,
      show natDigitsAux (n + 1) n [] = natDigitsAux n (n / 10) [decDigit n] by
        simp [natDigitsAux, h10],
      natDigitsAux_eq (n / 10) n [decDigit n] (by omega)]

/-- Value of a digit string, used to prove the rendering injective. -/
def digitsVal (cs : List Char) : Nat :=
  cs.foldl (fun a c => a * 10 + (c.toNat - 48)) 0

theorem digitsVal_natRepr (n : Nat) : digitsVal (natDigitsAux (n + 1) n []) = n := by
  induction n using Nat.strong_induction_on with
  | _ n ih =>
      rw [natDigitsAux_unfold]
      by_cases h10 : n < 10
      · simp only [if_pos h10, digitsVal, List.foldl_cons, List.foldl_nil, decDigit_toNat]
        omega
      · rw [if_neg h10]
        have hdiv : n / 10 < n := by omega
        simp only [digitsVal, List.foldl_append, List.foldl_cons, List.foldl_nil]
        have hih := ih (n / 10) hdiv
        simp only [digitsVal] at hih
        rw [hih, decDigit_toNat]
        omega

theorem natRepr_no_colon (n : Nat) : ':' ∉ (natRepr n).data := by
  show ':' ∉ natDigitsAux (n + 1) n []
  induction n using Nat.strong_induction_on with
  | _ n ih =>
      rw [natDigitsAux_unfold]
      by_cases h10 : n < 10
      · simp only [if_pos h10, List.mem_singleton]
        exact fun h => decDigit_ne_colon n h.symm
      · simp only [if_neg h10, List.mem_append, List.mem_singleton]
        rintro (h | h)
        · exact ih (n / 10) (by omega) h
        · exact decDigit_ne_colon n h.symm

theorem natRepr_injective (m n : Nat) (h : natRepr m = natRepr n) : m = n := by
  have hdata : natDigitsAux (m + 1) m [] = natDigitsAux (n + 1) n [] :=
    congrArg String.data h
  have hv := digitsVal_natRepr m
  rw [hdata, digitsVal_natRepr n] at hv
  exact hv.symm

theorem append_colon_inj (a₁ : List Char) : ∀ (a₂ r₁ r₂ : List Char),
    ':' ∉ a₁ → ':' ∉ a₂ → a₁ ++ ':' :: r₁ = a₂ ++ ':' :: r₂ → a₁ = a₂ ∧ r₁ = r₂ := by
  induction a₁ with
  | nil =>
      intro a₂ r₁ r₂ _ h₂ heq
      cases a₂ with
      | nil => simpa using heq
      | cons c cs =>
          simp only [List.nil_append, List.cons_append, List.cons.injEq] at heq
          exact absurd (by rw [heq.1]; exact List.mem_cons_self c cs) h₂
  | cons c cs ih =>
      intro a₂ r₁ r₂ h₁ h₂ heq
      cases a₂ with
      | nil =>
          simp only [List.cons_append, List.nil_append, List.cons.injEq] at heq
          exact absurd (by rw [← heq.1]; exact List.mem_cons_self c cs) h₁
      | cons d ds =>
          simp only [List.cons_append, List.cons.injEq] at heq
          obtain ⟨hcd, htail⟩ := heq
          have h₁' : ':' ∉ cs := fun h => h₁ (List.mem_cons_of_mem c h)
          have h₂' : ':' ∉ ds := fun h => h₂ (List.mem_cons_of_mem d h)
          obtain ⟨he, hr⟩ := ih ds r₁ r₂ h₁' h₂' htail
          exact ⟨by rw [hcd, he], hr⟩

theorem generate_cache_key_data (text s l : String) (b m : Nat) :
    (generate_cache_key text s l b m).data =
      s.data ++ ':' :: (l.data ++ ':' :: ((natRepr b).data ++ ':' ::
        ((natRepr m).data ++ ':' :: text.data))) := by
  simp [generate_cache_key, String.data_append, List.append_assoc]

/-- C8 counterexample: two distinct component tuples — source language
`"ab:cd"` with target language `"ef"`, versus source `"ab"` with target
`"cd:ef"` (every one of these codes passes the service's length-2-to-5
language-code validation) — fold to the same cache key. -/
theorem cache_key_collision :
    generate_cache_key "x" "ab:cd" "ef" 1 1 = generate_cache_key "x" "ab" "cd:ef" 1 1 ∧
    ("ab:cd", "ef") ≠ (("ab", "cd:ef") : String × String) := by
  refine ⟨by decide, by decide⟩

/-- C8 (amended): cache keys are equal exactly when all five components are
equal, provided the source- and target-language components contain no `:`
character; without that restriction distinct component tuples can fold to
the same key (see the counterexample). -/
theorem cache_key_inj (t₁ t₂ s₁ s₂ l₁ l₂ : String) (b₁ b₂ m₁ m₂ : Nat)
    (hs₁ : ':' ∉ s₁.data) (hs₂ : ':' ∉ s₂.data)
    (hl₁ : ':' ∉ l₁.data) (hl₂ : ':' ∉ l₂.data) :
    generate_cache_key t₁ s₁ l₁ b₁ m₁ = generate_cache_key t₂ s₂ l₂ b₂ m₂ ↔
      (t₁ = t₂ ∧ s₁ = s₂ ∧ l₁ = l₂ ∧ b₁ = b₂ ∧ m₁ = m₂) := by
  constructor
  · intro h
    have hdata := congrArg String.data h
    rw [generate_cache_key_data, generate_cache_key_data] at hdata
    obtain ⟨hs, hrest₁⟩ := append_colon_inj _ _ _ _ hs₁ hs₂ hdata
    obtain ⟨hl, hrest₂⟩ := append_colon_inj _ _ _ _ hl₁ hl₂ hrest₁
    obtain ⟨hb, hrest₃⟩ :=
      append_colon_inj _ _ _ _ (natRepr_no_colon b₁) (natRepr_no_colon b₂) hrest₂
    obtain ⟨hm, htext⟩ :=
      append_colon_inj _ _ _ _ (natRepr_no_colon m₁) (natRepr_no_colon m₂) hrest₃
    exact ⟨String.ext htext, String.ext hs, String.ext hl,
      natRepr_injective b₁ b₂ (String.ext hb), natRepr_injective m₁ m₂ (String.ext hm)⟩
  · rintro ⟨rfl, rfl, rfl, rfl, rfl⟩
    rfl

/-- Witness for `cache_key_inj`: equal colon-free components give equal keys,
and the equivalence applies at a concrete pair. -/
theorem cache_key_inj_witness :
    generate_cache_key "Hello" "en" "fr" 5 200 = generate_cache_key "Hello" "en" "fr" 5 200 :=
  (cache_key_inj "Hello" "Hello" "en" "en" "fr" "fr" 5 5 200 200
    (by decide) (by decide) (by decide) (by decide)).2
    ⟨rfl, rfl, rfl, rfl, rfl⟩

/-- Model of the `TaskStatus` enum from `src/utils/task_store.py`. -/
inductive TaskStatus
  | pending
  | processing
  | completed
  | failed
deriving DecidableEq, Repr

/-- Structured result payload produced by the orchestrators: the result dict
of a single translation or of a batch translation. -/
inductive TaskResult
  | single (translated_text source_lang target_lang : String) (processing_time : Int)
  | batch (translations : List String) (source_lang target_lang : String)
      (processing_time : Int)
deriving DecidableEq, Repr

/-- Model of the `Task` class (`task_store.py`, lines 27-129).  Timestamps
(ISO strings produced by `datetime.now().isoformat()`) are modelled as
integers. -/
structure Task where
  task_id : String
  task_type : String
  status : TaskStatus
  created_at : Int
  started_at : Option Int
  completed_at : Option Int
  result : Option TaskResult
  error : Option String
  callback_url : Option String
deriving DecidableEq, Repr

/-- Model of `Task.__init__`: a fresh pending task. -/
def Task.new (task_id task_type : String) (created_at : Int)
    (callback_url : Option String) : Task :=
  { task_id := task_id, task_type := task_type, status := .pending,
    created_at := created_at, started_at := none, completed_at := none,
    result := none, error := none, callback_url := callback_url }

/-- Python truthiness of `self.callback_url`: `None` and `""` are falsy. -/
def truthy : Option String → Bool
  | none => false
  | some s => !s.isEmpty

/-- The JSON body assembled by `Task._send_callback` (`task_store.py`,
lines 83-110): `result` is included only for a completed task and `error`
only for a failed one (`none` models an absent JSON field). -/
structure CallbackPayload where
  task_id : String
  status : TaskStatus
  created_at : Int
  completed_at : Option Int
  result : Option TaskResult
  error : Option String
deriving DecidableEq, Repr

/-- Model of `Task._send_callback`: builds the payload and attempts exactly
one POST to `callback_url`; `deliver` models the outcome of `httpx.post`
(`false` means the call raised).  The surrounding `try/except` swallows any
delivery failure, so the function's only observable product is the list of
attempted posts — it touches no task field. -/
def Task.sendCallback (t : Task) (deliver : String → CallbackPayload → Bool) :
    List (String × CallbackPayload × Bool) :=
  match t.callback_url with
  | some url =>
      let payload : CallbackPayload :=
        { task_id := t.task_id, status := t.status, created_at := t.created_at,
          completed_at := t.completed_at,
          result := if t.status = .completed then t.result else none,
          error := if t.status = .failed then t.error else none }
      [(url, payload, deliver url payload)]
  | none => []

/-- Model of `Task.start` (`task_store.py`, lines 48-51): unconditionally
sets the status to processing. -/
def Task.start (t : Task) (now : Int) : Task :=
  { t with status := .processing, started_at := some now }

/-- Model of `Task.complete` (`task_store.py`, lines 53-66): unconditionally
sets the status to completed, records the result, and dispatches the callback
when `callback_url` is truthy.  Returns the updated task together with the
list of attempted posts. -/
def Task.complete (t : Task) (result : TaskResult) (now : Int)
    (deliver : String → CallbackPayload → Bool) :
    Task × List (String × CallbackPayload × Bool) :=
  let t' := { t with
    status := .completed, completed_at := some now, result := some result }
  (t', if truthy t'.callback_url then t'.sendCallback deliver else [])

/-- Model of `Task.fail` (`task_store.py`, lines 68-81): unconditionally sets
the status to failed, records the error message, and dispatches the callback
when `callback_url` is truthy. -/
def Task.fail (t : Task) (error : String) (now : Int)
    (deliver : String → CallbackPayload → Bool) :
    Task × List (String × CallbackPayload × Bool) :=
  let t' := { t with
    status := .failed, completed_at := some now, error := some error }
  (t', if truthy t'.callback_url then t'.sendCallback deliver else [])

/-- A lifecycle call against one task. -/
inductive TaskOp
  | start (now : Int)
  | complete (r : TaskResult) (now : Int)
  | fail (e : String) (now : Int)
deriving DecidableEq, Repr

/-- Whether a lifecycle call is one of the two terminal transitions. -/
def TaskOp.isTerminalCall : TaskOp → Bool
  | .start _ => false
  | .complete _ _ => true
  | .fail _ _ => true

/-- Runs one lifecycle call (the callback transport is irrelevant to the
task state, see `callback_dispatch_spec`, so a fixed one is used). -/
def Task.applyOp (t : Task) : TaskOp → Task
  | .start now => t.start now
  | .complete r now => (t.complete r now (fun _ _ => true)).1
  | .fail e now => (t.fail e now (fun _ _ => true)).1

/-- Runs a sequence of lifecycle calls. -/
def Task.applyOps (t : Task) (ops : List TaskOp) : Task :=
  ops.foldl Task.applyOp t

theorem applyOps_start_only (ops : List TaskOp) :
    (∀ op ∈ ops, op.isTerminalCall = false) →
    ∀ t : Task, t.result = none → t.error = none →
      (t.status = .pending ∨ t.status = .processing) →
      (t.applyOps ops).result = none ∧ (t.applyOps ops).error = none ∧
        ((t.applyOps ops).status = .pending ∨ (t.applyOps ops).status = .processing) := by
  induction ops with
  | nil => intro _ t h1 h2 h3; exact ⟨h1, h2, h3⟩
  | cons op rest ih =>
      intro hops t h1 h2 h3
      have hop : op.isTerminalCall = false := hops op (List.mem_cons_self op rest)
      have hrest : ∀ o ∈ rest, o.isTerminalCall = false :=
        fun o ho => hops o (List.mem_cons_of_mem op ho)
      cases op with
      | start now => exact ih hrest (t.start now) h1 h2 (Or.inr rfl)
      | complete r now => simp [TaskOp.isTerminalCall] at hop
      | fail e now => simp [TaskOp.isTerminalCall] at hop

theorem take_mem_dropLast (ops : List TaskOp) (n : Nat) (hn : n < ops.length)
    (op : TaskOp) (hop : op ∈ ops.take n) : op ∈ ops.dropLast := by
  have h1 : ops.take n = (ops.dropLast).take n := by
    rw [List.dropLast_eq_take, List.take_take]
    congr 1
    omega
  exact List.take_subset n ops.dropLast (h1 ▸ hop)

theorem task_clean_before_last (id ty : String) (created : Int) (cb : Option String)
    (ops : List TaskOp) (hops : ∀ op ∈ ops.dropLast, op.isTerminalCall = false)
    (n : Nat) (hn : n < ops.length) :
    ((Task.new id ty created cb).applyOps (ops.take n)).result = none ∧
    ((Task.new id ty created cb).applyOps (ops.take n)).error = none ∧
    (((Task.new id ty created cb).applyOps (ops.take n)).status = .pending ∨
      ((Task.new id ty created cb).applyOps (ops.take n)).status = .processing) :=
  applyOps_start_only (ops.take n)
    (fun op hop => hops op (take_mem_dropLast ops n hn op hop))
    (Task.new id ty created cb) rfl rfl (Or.inl rfl)

theorem task_final_state (id ty : String) (created : Int) (cb : Option String)
    (ops : List TaskOp) (hops : ∀ op ∈ ops.dropLast, op.isTerminalCall = false) :
    (((Task.new id ty created cb).applyOps ops).result = none ∨
      ((Task.new id ty created cb).applyOps ops).error = none) ∧
    (((Task.new id ty created cb).applyOps ops).result ≠ none →
      ((Task.new id ty created cb).applyOps ops).status = .completed) ∧
    (((Task.new id ty created cb).applyOps ops).error ≠ none →
      ((Task.new id ty created cb).applyOps ops).status = .failed) := by
  rcases List.eq_nil_or_concat ops with rfl | ⟨pre, last, rfl⟩
  · exact ⟨Or.inl rfl, fun h => absurd rfl h, fun h => absurd rfl h⟩
  · simp only [List.concat_eq_append] at hops ⊢
    have hpre : ∀ op ∈ pre, op.isTerminalCall = false := by
      intro op hop
      exact hops op (by rw [List.dropLast_concat]; exact hop)
    have hclean := applyOps_start_only pre hpre (Task.new id ty created cb) rfl rfl
      (Or.inl rfl)
    have hsplit : (Task.new id ty created cb).applyOps (pre ++ [last]) =
        ((Task.new id ty created cb).applyOps pre).applyOp last := by
      simp [Task.applyOps, List.foldl_append]
    rw [hsplit]
    set s := (Task.new id ty created cb).applyOps pre with hs
    cases last with
    | start now =>
        refine ⟨Or.inl ?_, fun h => absurd ?_ h, fun h => absurd ?_ h⟩
        · exact hclean.1
        · exact hclean.1
        · exact hclean.2.1
    | complete r now =>
        refine ⟨Or.inr ?_, fun _ => rfl, fun h => absurd ?_ h⟩
        · exact hclean.2.1
        · exact hclean.2.1
    | fail e now =>
        refine ⟨Or.inl ?_, fun h => absurd ?_ h, fun _ => rfl⟩
        · exact hclean.1
        · exact hclean.1

/-- C1 counterexample: `complete` and `fail` have no state guards, so the
call sequence `complete(result)` then `fail(error)` on one fresh record sets
both `result` and `error`, and the second call leaves the terminal Completed
state for Failed. -/
theorem task_both_result_and_error :
    (((Task.new "id" "translate" 0 none).applyOp
        (.complete (.single "tr" "en" "fr" 1) 1)).applyOp (.fail "boom" 2)).result =
      some (.single "tr" "en" "fr" 1) ∧
    (((Task.new "id" "translate" 0 none).applyOp
        (.complete (.single "tr" "en" "fr" 1) 1)).applyOp (.fail "boom" 2)).error =
      some "boom" ∧
    ((Task.new "id" "translate" 0 none).applyOp
        (.complete (.single "tr" "en" "fr" 1) 1)).status = .completed ∧
    (((Task.new "id" "translate" 0 none).applyOp
        (.complete (.single "tr" "en" "fr" 1) 1)).applyOp (.fail "boom" 2)).status =
      .failed := by
  decide

/-- C1 (amended): for every freshly created TaskRecord and every sequence of
lifecycle calls in which a terminal call (`complete` or `fail`) occurs only
as the final call — the discipline the orchestrator follows — at most one of
{result, error} is ever set, each is set only with the matching terminal
status, and no transition leaves a terminal state: every state reached
before the final call is Pending or Processing, so a terminal status, once
reached, persists through the end of the sequence. -/
theorem task_lifecycle_spec (id ty : String) (created : Int) (cb : Option String)
    (ops : List TaskOp)
    (hops : ∀ op ∈ ops.dropLast, op.isTerminalCall = false) :
    (∀ n, n ≤ ops.length →
      ((Task.new id ty created cb).applyOps (ops.take n)).result = none ∨
        ((Task.new id ty created cb).applyOps (ops.take n)).error = none) ∧
    (∀ n, n ≤ ops.length →
      (((Task.new id ty created cb).applyOps (ops.take n)).result ≠ none →
        ((Task.new id ty created cb).applyOps (ops.take n)).status = .completed) ∧
      (((Task.new id ty created cb).applyOps (ops.take n)).error ≠ none →
        ((Task.new id ty created cb).applyOps (ops.take n)).status = .failed)) ∧
    (∀ n m, n ≤ m → m ≤ ops.length →
      (((Task.new id ty created cb).applyOps (ops.take n)).status = .completed ∨
        ((Task.new id ty created cb).applyOps (ops.take n)).status = .failed) →
      ((Task.new id ty created cb).applyOps (ops.take m)).status =
        ((Task.new id ty created cb).applyOps (ops.take n)).status) := by
  refine ⟨?_, ?_, ?_⟩
  · intro n hn
    rcases lt_or_eq_of_le hn with hlt | heq
    · exact Or.inl (task_clean_before_last id ty created cb ops hops n hlt).1
    · rw [heq, List.take_length]
      exact (task_final_state id ty created cb ops hops).1
  · intro n hn
    rcases lt_or_eq_of_le hn with hlt | heq
    · have h := task_clean_before_last id ty created cb ops hops n hlt
      exact ⟨fun hr => absurd h.1 hr, fun he => absurd h.2.1 he⟩
    · rw [heq, List.take_length]
      exact ⟨(task_final_state id ty created cb ops hops).2.1,
        (task_final_state id ty created cb ops hops).2.2⟩
  · intro n m hnm hm hterm
    by_cases hlt : n < ops.length
    · have h := task_clean_before_last id ty created cb ops hops n hlt
      rcases h.2.2 with hp | hp <;> rcases hterm with ht | ht <;> rw [hp] at ht <;>
        simp at ht
    · have hmn : m = n := by omega
      rw [hmn]

/-- Witness for `task_lifecycle_spec`: the orchestrator's own sequence
(start, then one complete) keeps the invariant at every step. -/
theorem task_lifecycle_spec_witness :
    ((Task.new "id" "translate" 0 none).applyOps
      (([TaskOp.start 1, TaskOp.complete (.single "tr" "en" "fr" 1) 2]).take 2)).result =
        none ∨
    ((Task.new "id" "translate" 0 none).applyOps
      (([TaskOp.start 1, TaskOp.complete (.single "tr" "en" "fr" 1) 2]).take 2)).error =
        none :=
  (task_lifecycle_spec "id" "translate" 0 none
    [TaskOp.start 1, TaskOp.complete (.single "tr" "en" "fr" 1) 2]
    (by decide)).1 2 (by decide)

/-- C4: a terminal transition on a task whose callback URL is set and
non-empty attempts exactly one POST, whose payload carries `task_id`,
`status`, `created_at` and `completed_at`, plus `result` when Completed or
`error` when Failed; the delivery outcome is swallowed — the resulting task
state is independent of the transport and is terminal with its fields intact
either way. -/
theorem callback_dispatch_spec (t : Task) (url : String) (r : TaskResult)
    (e : String) (now : Int) (deliver deliver₂ : String → CallbackPayload → Bool)
    (hurl : t.callback_url = some url) (hne : url ≠ "") :
    ((t.complete r now deliver).2.length = 1 ∧
      ∀ p ∈ (t.complete r now deliver).2,
        p.1 = url ∧ p.2.1.task_id = t.task_id ∧ p.2.1.status = .completed ∧
        p.2.1.created_at = t.created_at ∧ p.2.1.completed_at = some now ∧
        p.2.1.result = some r ∧ p.2.1.error = none) ∧
    ((t.fail e now deliver).2.length = 1 ∧
      ∀ p ∈ (t.fail e now deliver).2,
        p.1 = url ∧ p.2.1.task_id = t.task_id ∧ p.2.1.status = .failed ∧
        p.2.1.created_at = t.created_at ∧ p.2.1.completed_at = some now ∧
        p.2.1.error = some e ∧ p.2.1.result = none) ∧
    ((t.complete r now deliver).1 = (t.complete r now deliver₂).1 ∧
      (t.fail e now deliver).1 = (t.fail e now deliver₂).1) ∧
    ((t.complete r now deliver).1.status = .completed ∧
      (t.complete r now deliver).1.result = some r ∧
      (t.fail e now deliver).1.status = .failed ∧
      (t.fail e now deliver).1.error = some e) := by
  have hempty : url.isEmpty = false := by
    rcases h : url.isEmpty with _ | _
    · rfl
    · exact absurd ((String.isEmpty_iff url).mp h) hne
  refine ⟨⟨?_, ?_⟩, ⟨?_, ?_⟩, ⟨?_, ?_⟩, ?_, ?_, ?_, ?_⟩
  · simp [Task.complete, Task.sendCallback, truthy, hurl, hempty]
  · intro p hp
    simp [Task.complete, Task.sendCallback, truthy, hurl, hempty] at hp
    subst hp
    simp
  · simp [Task.fail, Task.sendCallback, truthy, hurl, hempty]
  · intro p hp
    simp [Task.fail, Task.sendCallback, truthy, hurl, hempty] at hp
    subst hp
    simp
  · rfl
  · rfl
  · rfl
  · rfl
  · rfl
  · rfl

/-- Witness for `callback_dispatch_spec` at a concrete task and URL. -/
theorem callback_dispatch_spec_witness :
    ((Task.new "id" "translate" 0 (some "http://cb")).complete
      (.single "tr" "en" "fr" 1) 5 (fun _ _ => false)).2.length = 1 :=
  (callback_dispatch_spec (Task.new "id" "translate" 0 (some "http://cb"))
    "http://cb" (.single "tr" "en" "fr" 1) "boom" 5 (fun _ _ => false)
    (fun _ _ => true) rfl (by decide)).1.1

/-- Model of `TaskStore.cleanup_old_tasks` (`task_store.py`, lines 179-197):
first collects the ids of all tasks strictly older than `max_age_seconds`,
then deletes exactly those ids from the store. -/
def cleanup_old_tasks (tasks : List Task) (now : Int) (max_age_seconds : Int) :
    List Task :=
  let to_remove :=
    (tasks.filter (fun t => decide (max_age_seconds < now - t.created_at))).map
      Task.task_id
  tasks.filter (fun t => decide (t.task_id ∉ to_remove))

/-- C6: `cleanup_old_tasks(max_age)` at time `now` removes exactly the
records whose `created_at` predates `now - max_age` — that is, those with
`now - created_at > max_age` — regardless of their state, while every record
at or after the cutoff remains in the store unchanged, and nothing new
appears. -/
theorem cleanup_spec (tasks : List Task) (now max_age : Int)
    (hnd : (tasks.map Task.task_id).Nodup) :
    (∀ t ∈ tasks,
      (t ∈ cleanup_old_tasks tasks now max_age ↔ now - t.created_at ≤ max_age)) ∧
    (∀ t ∈ cleanup_old_tasks tasks now max_age, t ∈ tasks) := by
  constructor
  · intro t ht
    simp only [cleanup_old_tasks, List.mem_filter, decide_eq_true_eq]
    constructor
    · rintro ⟨-, hnot⟩
      by_contra hgt
      push_neg at hgt
      exact hnot (List.mem_map_of_mem Task.task_id
        (List.mem_filter.mpr ⟨ht, by simpa using hgt⟩))
    · intro hle
      refine ⟨ht, ?_⟩
      intro hmem
      obtain ⟨t', ht', hidt⟩ := List.mem_map.mp hmem
      have ht'tasks : t' ∈ tasks := (List.mem_filter.mp ht').1
      have hold : max_age < now - t'.created_at := by
        simpa using (List.mem_filter.mp ht').2
      have heq : t' = t := List.inj_on_of_nodup_map hnd ht'tasks ht hidt
      subst heq
      omega
  · intro t ht
    exact (List.mem_filter.mp ht).1

/-- Witness for `cleanup_spec`: with `now = 100` and `max_age = 50`, a task
created at time 90 survives the purge. -/
theorem cleanup_spec_witness :
    Task.new "young" "t" 90 none ∈
      cleanup_old_tasks [Task.new "old" "t" 0 none, Task.new "young" "t" 90 none]
        100 50 ↔ (100 : Int) - (Task.new "young" "t" 90 none).created_at ≤ 50 :=
  (cleanup_spec [Task.new "old" "t" 0 none, Task.new "young" "t" 90 none] 100 50
    (by decide)).1 (Task.new "young" "t" 90 none) (by decide)

/-- One language detection candidate, `{"language": ..., "confidence": ...}`. -/
structure Detection where
  language : String
  confidence : Int
deriving DecidableEq, Repr

/-- The external Translator collaborator (the ML model behind `get_model()`):
each capability may raise, `Except.error` carrying `str(e)`. -/
structure Model where
  detect_language : String → Nat → Except String (List Detection)
  translate : String → String → String → Nat → Nat → Except String String

/-- Model of the `TranslationOptions` request fields used by the
orchestrators. -/
structure TranslationOptions where
  source_lang : Option String
  target_lang : String
  beam_size : Nat
  max_length : Nat
deriving DecidableEq, Repr

/-- Model of `task_store.get_task`: dictionary lookup by id. -/
def findTask (tasks : List Task) (task_id : String) : Option Task :=
  tasks.find? (fun t => decide (t.task_id = task_id))

/-- The store after the task object under `task_id` has been mutated to
`t'` (Python mutates the object held in the dict in place). -/
def updateTask (tasks : List Task) (task_id : String) (t' : Task) : List Task :=
  tasks.map (fun t => if t.task_id = task_id then t' else t)

/-- Source-language resolution (`endpoints.py`, lines 667-674 and 785-795):
use the explicit language if given, otherwise detect with `top_k=1`, raising
`ValueError("Could not detect language")` when detection yields no
candidates. -/
def resolveLang (model : Model) (text : String) (source_lang : Option String) :
    Except String String :=
  match source_lang with
  | some s => Except.ok s
  | none =>
      match model.detect_language text 1 with
      | Except.error e => Except.error e
      | Except.ok [] => Except.error "Could not detect language"
      | Except.ok (d :: _) => Except.ok d.language

/-- The body of the `try` block of `process_async_translation`
(`endpoints.py`, lines 659-709): obtain the model, resolve the source
language, translate.  Returns the translated text with the resolved
language, or the first raised error. -/
def translationSteps (getModel : Except String Model) (text : String)
    (options : TranslationOptions) : Except String (String × String) :=
  match getModel with
  | Except.error e => Except.error e
  | Except.ok model =>
      match resolveLang model text options.source_lang with
      | Except.error e => Except.error e
      | Except.ok source_lang =>
          match model.translate text source_lang options.target_lang
              options.beam_size options.max_length with
          | Except.error e => Except.error e
          | Except.ok translated => Except.ok (translated, source_lang)

/-- Model of `process_async_translation` (`endpoints.py`, lines 638-746):
look up the task (absent: log and abort), mark it processing, run the steps,
and mark the task completed with the structured result or failed with the
raised message.  `tstart`/`tend` are the wall-clock instants around the
work. -/
def process_async_translation (getModel : Except String Model) (tasks : List Task)
    (task_id text : String) (options : TranslationOptions) (tstart tend : Int)
    (deliver : String → CallbackPayload → Bool) : List Task :=
  match findTask tasks task_id with
  | none => tasks
  | some task =>
      let task := task.start tstart
      let final :=
        match translationSteps getModel text options with
        | Except.ok (translated, source_lang) =>
            (task.complete (.single translated source_lang options.target_lang
              (tend - tstart)) tend deliver).1
        | Except.error e => (task.fail e tend deliver).1
      updateTask tasks task_id final

/-- One iteration of the batch loop body (`endpoints.py`, lines 783-804):
resolve the language for this text, then translate it. -/
def oneTextStep (model : Model) (options : TranslationOptions) (text : String) :
    Except String String :=
  match resolveLang model text options.source_lang with
  | Except.error e => Except.error e
  | Except.ok lang =>
      model.translate text lang options.target_lang options.beam_size
        options.max_length

/-- The `for text in texts` loop of `process_async_batch_translation`:
translates the texts in order, the first raise aborting the loop. -/
def translateTexts (model : Model) (options : TranslationOptions) :
    List String → Except String (List String)
  | [] => Except.ok []
  | text :: rest =>
      match oneTextStep model options text with
      | Except.error e => Except.error e
      | Except.ok translated =>
          match translateTexts model options rest with
          | Except.error e => Except.error e
          | Except.ok others => Except.ok (translated :: others)

/-- The body of the `try` block of `process_async_batch_translation`
(`endpoints.py`, lines 773-804): obtain the model, then run the loop. -/
def batchSteps (getModel : Except String Model) (texts : List String)
    (options : TranslationOptions) : Except String (List String) :=
  match getModel with
  | Except.error e => Except.error e
  | Except.ok model => translateTexts model options texts

/-- Model of `process_async_batch_translation` (`endpoints.py`, lines
749-869). -/
def process_async_batch_translation (getModel : Except String Model)
    (tasks : List Task) (task_id : String) (texts : List String)
    (options : TranslationOptions) (tstart tend : Int)
    (deliver : String → CallbackPayload → Bool) : List Task :=
  match findTask tasks task_id with
  | none => tasks
  | some task =>
      let task := task.start tstart
      let final :=
        match batchSteps getModel texts options with
        | Except.ok translations =>
            (task.complete (.batch translations
              (options.source_lang.getD "auto-detected") options.target_lang
              (tend - tstart)) tend deliver).1
        | Except.error e => (task.fail e tend deliver).1
      updateTask tasks task_id final

theorem findTask_updateTask (tasks : List Task) (task_id : String) (t' : Task)
    (ht' : t'.task_id = task_id) :
    ∀ task, findTask tasks task_id = some task →
      findTask (updateTask tasks task_id t') task_id = some t' := by
  induction tasks with
  | nil => intro task h; simp [findTask] at h
  | cons a rest ih =>
      intro task h
      by_cases ha : a.task_id = task_id
      · simp [findTask, updateTask, ha, ht']
      · simp only [updateTask, List.map_cons, if_neg ha]
        simp only [findTask] at h ⊢
        rw [List.find?_cons_of_neg _ (by simpa using ha)] at h
        rw [List.find?_cons_of_neg _ (by simpa using ha)]
        exact ih task h

theorem translationSteps_detect_empty (getModel : Except String Model)
    (text : String) (options : TranslationOptions) (m : Model)
    (hnone : options.source_lang = none) (hgm : getModel = .ok m)
    (hdet : m.detect_language text 1 = .ok []) :
    translationSteps getModel text options = .error "Could not detect language" := by
  subst hgm
  simp [translationSteps, resolveLang, hnone, hdet]

/-- C3: the single-text async orchestrator is total and is the sole error
boundary: when the steps succeed the task ends Completed with the structured
result; when any step raises — including detection returning no candidates,
which raises the descriptive `"Could not detect language"` — the task ends
Failed with exactly that message; in every case the final state is terminal
and nothing escapes. -/
theorem async_translation_spec (getModel : Except String Model) (tasks : List Task)
    (task_id text : String) (options : TranslationOptions) (tstart tend : Int)
    (deliver : String → CallbackPayload → Bool) (task : Task)
    (hfind : findTask tasks task_id = some task) :
    ∃ final, findTask (process_async_translation getModel tasks task_id text
        options tstart tend deliver) task_id = some final ∧
      (final.status = .completed ∨ final.status = .failed) ∧
      (∀ e, translationSteps getModel text options = .error e →
        final.status = .failed ∧ final.error = some e) ∧
      (∀ tr lang, translationSteps getModel text options = .ok (tr, lang) →
        final.status = .completed ∧
        final.result = some (.single tr lang options.target_lang (tend - tstart))) ∧
      (options.source_lang = none → ∀ m, getModel = .ok m →
        m.detect_language text 1 = .ok [] →
        final.status = .failed ∧ final.error = some "Could not detect language") := by
  have hid : task.task_id = task_id := by simpa using List.find?_some hfind
  cases hsteps : translationSteps getModel text options with
  | error e₀ =>
      have hproc : process_async_translation getModel tasks task_id text options
          tstart tend deliver =
          updateTask tasks task_id ((task.start tstart).fail e₀ tend deliver).1 := by
        simp [process_async_translation, hfind, hsteps]
      refine ⟨((task.start tstart).fail e₀ tend deliver).1, ?_, Or.inr rfl, ?_, ?_, ?_⟩
      · rw [hproc]
        exact findTask_updateTask tasks task_id _ hid task hfind
      · intro e he
        injection he with he
        subst he
        exact ⟨rfl, rfl⟩
      · intro tr lang htl
        cases htl
      · intro hnone m hgm hdet
        have hmsg := translationSteps_detect_empty getModel text options m hnone hgm hdet
        rw [hsteps] at hmsg
        injection hmsg with hmsg
        subst hmsg
        exact ⟨rfl, rfl⟩
  | ok p =>
      obtain ⟨tr₀, lang₀⟩ := p
      have hproc : process_async_translation getModel tasks task_id text options
          tstart tend deliver =
          updateTask tasks task_id ((task.start tstart).complete
            (.single tr₀ lang₀ options.target_lang (tend - tstart)) tend deliver).1 := by
        simp [process_async_translation, hfind, hsteps]
      refine ⟨((task.start tstart).complete
          (.single tr₀ lang₀ options.target_lang (tend - tstart)) tend deliver).1,
        ?_, Or.inl rfl, ?_, ?_, ?_⟩
      · rw [hproc]
        exact findTask_updateTask tasks task_id _ hid task hfind
      · intro e he
        cases he
      · intro tr lang htl
        injection htl with htl
        cases htl
        exact ⟨rfl, rfl⟩
      · intro hnone m hgm hdet
        have hmsg := translationSteps_detect_empty getModel text options m hnone hgm hdet
        rw [hsteps] at hmsg
        cases hmsg

theorem translateTexts_append_error (m : Model) (options : TranslationOptions)
    (bad : String) (post : List String) (e : String)
    (hbad : oneTextStep m options bad = .error e) :
    ∀ pre trs, translateTexts m options pre = .ok trs →
      translateTexts m options (pre ++ bad :: post) = .error e := by
  intro pre
  induction pre with
  | nil => intro trs _; simp [translateTexts, hbad]
  | cons p ps ih =>
      intro trs h
      cases hp : oneTextStep m options p with
      | error er => simp [translateTexts, hp] at h
      | ok tr =>
          cases hps : translateTexts m options ps with
          | error er => simp [translateTexts, hp, hps] at h
          | ok others =>
              simp only [List.cons_append, translateTexts, hp, List.append_eq,
                ih others hps]

/-- C5: batch orchestration is all-or-nothing: when translating (or
detecting the language of) any single text raises, the whole task ends
Failed with that error recorded and no result set — the successful
translations of earlier texts are not recorded anywhere in the task. -/
theorem async_batch_all_or_nothing (m : Model) (tasks : List Task)
    (task_id bad e : String) (pre post trs : List String)
    (options : TranslationOptions) (tstart tend : Int)
    (deliver : String → CallbackPayload → Bool) (task : Task)
    (hfind : findTask tasks task_id = some task) (hres : task.result = none)
    (hpre : translateTexts m options pre = .ok trs)
    (hbad : oneTextStep m options bad = .error e) :
    ∃ final, findTask (process_async_batch_translation (.ok m) tasks task_id
        (pre ++ bad :: post) options tstart tend deliver) task_id = some final ∧
      final.status = .failed ∧ final.error = some e ∧ final.result = none := by
  have hid : task.task_id = task_id := by simpa using List.find?_some hfind
  have hsteps : batchSteps (.ok m) (pre ++ bad :: post) options = .error e := by
    simpa [batchSteps] using translateTexts_append_error m options bad post e hbad pre trs hpre
  have hproc : process_async_batch_translation (.ok m) tasks task_id
      (pre ++ bad :: post) options tstart tend deliver =
      updateTask tasks task_id ((task.start tstart).fail e tend deliver).1 := by
    simp [process_async_batch_translation, hfind, hsteps]
  refine ⟨((task.start tstart).fail e tend deliver).1, ?_, rfl, rfl, hres⟩
  rw [hproc]
  exact findTask_updateTask tasks task_id _ hid task hfind

/-- A concrete translator used to exercise the orchestrator theorems: it
detects English and raises `"boom"` exactly on the text `"bad"`. -/
def witnessModel : Model :=
  { detect_language := fun _ _ => .ok [⟨"en", 9⟩]
    translate := fun text _ _ _ _ =>
      if text = "bad" then .error "boom" else .ok ("T:" ++ text) }

/-- Witness for `async_translation_spec` at a concrete store and model. -/
theorem async_translation_spec_witness :
    ∃ final, findTask (process_async_translation (.ok witnessModel)
        [Task.new "t1" "translate" 0 none] "t1" "hello"
        ⟨some "en", "fr", 5, 200⟩ 1 2 (fun _ _ => true)) "t1" = some final ∧
      (final.status = .completed ∨ final.status = .failed) ∧
      (∀ e, translationSteps (.ok witnessModel) "hello" ⟨some "en", "fr", 5, 200⟩ =
          .error e → final.status = .failed ∧ final.error = some e) ∧
      (∀ tr lang, translationSteps (.ok witnessModel) "hello"
          ⟨some "en", "fr", 5, 200⟩ = .ok (tr, lang) →
          final.status = .completed ∧
          final.result = some (.single tr lang "fr" (2 - 1))) ∧
      ((⟨some "en", "fr", 5, 200⟩ : TranslationOptions).source_lang = none →
        ∀ m, (.ok witnessModel : Except String Model) = .ok m →
        m.detect_language "hello" 1 = .ok [] →
        final.status = .failed ∧ final.error = some "Could not detect language") :=
  async_translation_spec (.ok witnessModel) [Task.new "t1" "translate" 0 none]
    "t1" "hello" ⟨some "en", "fr", 5, 200⟩ 1 2 (fun _ _ => true)
    (Task.new "t1" "translate" 0 none) rfl

/-- Witness for `async_batch_all_or_nothing`: the third of four texts raises
and the whole batch task fails with no result. -/
theorem async_batch_all_or_nothing_witness :
    ∃ final, findTask (process_async_batch_translation (.ok witnessModel)
        [Task.new "t2" "batch_translate" 0 none] "t2"
        (["a", "b"] ++ "bad" :: ["c"]) ⟨some "en", "fr", 5, 200⟩ 1 2
        (fun _ _ => true)) "t2" = some final ∧
      final.status = .failed ∧ final.error = some "boom" ∧ final.result = none :=
  async_batch_all_or_nothing witnessModel [Task.new "t2" "batch_translate" 0 none]
    "t2" "bad" "boom" ["a", "b"] ["c"] ["T:a", "T:b"] ⟨some "en", "fr", 5, 200⟩
    1 2 (fun _ _ => true) (Task.new "t2" "batch_translate" 0 none)
    rfl rfl (by rfl) (by rfl)

end LexiShift
